import Mathlib
set_option linter.unnecessarySeqFocus false
set_option linter.unusedVariables false

/-!
Verification of the structural-regex edit engine of the `ad` editor
(`src/exec/mod.rs` and `src/exec/addr.rs`), shallowly embedded in Lean.

Text is a `List Char` indexed by absolute character position.  The gap
buffer, the `Dot`/`Cur`/`Range` types, the regex engine and the expression
parser live outside the covered sources; where a definition depends on them
it is modelled from the specification and says so in its doc comment.
Machine integers (`usize`/`isize`) are modelled as `Nat`/`Int`, with the
wrap-around of `as usize` casts written explicitly where the source relies
on it.
-/

/-! ## List utilities mirroring the Rust `str` operations used by the engine -/

/-- Modelled from the spec: Rust `str::contains(pat)` on character lists
(substring containment, used by `template_match` for `$FILENAME` and `$0..$9`). -/
def containsTok (pat : List Char) : List Char → Bool
  | [] => pat.isEmpty
  | c :: tl => pat.isPrefixOf (c :: tl) || containsTok pat tl

/-- Modelled from the spec: Rust `str::replace(pat, rep)` — replace every
non-overlapping occurrence of `pat`, scanning left to right, never rescanning
the text injected by `rep`.  `skip` counts characters of an already-replaced
occurrence still to be consumed. -/
def replaceGo (pat rep : List Char) (skip : Nat) : List Char → List Char
  | [] => []
  | c :: tl =>
    match skip with
    | k + 1 => replaceGo pat rep k tl
    | 0 =>
      if pat.isPrefixOf (c :: tl) then
        rep ++ replaceGo pat rep (pat.length - 1) tl
      else
        c :: replaceGo pat rep 0 tl

/-- Rust `str::replace(pat, rep)` on character lists. -/
def replaceAll (pat rep : List Char) (s : List Char) : List Char :=
  replaceGo pat rep 0 s

/-- Insert the characters `s` at character index `idx`
(`GapBuffer::insert_str` / the insertion performed by `Buffer::handle_action`). -/
def insertChars (text : List Char) (idx : Nat) (s : List Char) : List Char :=
  text.take idx ++ s ++ text.drop idx

/-- Remove the characters in `[f, t)` (`GapBuffer::remove_range` / the
deletion performed by `Buffer::handle_action` on the dot set by `remove`). -/
def removeChars (text : List Char) (f t : Nat) : List Char :=
  text.take f ++ text.drop t

/-- The characters at indices `[f, t)` of `text`
(`iter_between(f, t)` collected into a string). -/
def sliceChars (text : List Char) (f t : Nat) : List Char :=
  (text.drop f).take (t - f)

/-! ## The data model: dots and matches -/

/-- Modelled from the spec: a `Dot` is a selection carried as a pair of
character indices `dfrom ≤ dto` (`Dot`/`Cur`/`Range` of the `dot` module,
which is outside the covered sources).  A cursor is the pair `⟨i, i⟩`;
`collapse_null_range` is therefore the identity in this model. -/
structure Dot where
  dfrom : Nat
  dto : Nat
deriving DecidableEq, Repr

/-- Modelled from the spec: `Dot::from_char_indices`.  The spec's data-model
invariant `0 ≤ start ≤ end` is maintained by ordering the two indices. -/
def Dot.fromCharIndices (f t : Nat) : Dot := ⟨min f t, max f t⟩

/-- Modelled from the spec: `Dot::default()` — a cursor at index 0. -/
def Dot.default : Dot := ⟨0, 0⟩

/-- Modelled from the spec: `clamp_idx` — both indices clamped into `[0, mx]`. -/
def Dot.clamp (d : Dot) (mx : Nat) : Dot := ⟨min d.dfrom mx, min d.dto mx⟩

/-- Modelled from the spec: a regex `Match` — location `[mfrom, mto)`
(`to` exclusive) plus the locations of capture groups `1..9`
(`groups[k]` holds submatch `k+1`; submatch `0` is the whole match). -/
structure MatchM where
  mfrom : Nat
  mto : Nat
  groups : List (Option (Nat × Nat))
deriving DecidableEq, Repr

/-- Modelled from the spec: `Match::synthetic(from, to)` — a group-less match
spanning `[from, to)`. -/
def MatchM.synthetic (f t : Nat) : MatchM := ⟨f, t, []⟩

/-- `Match::loc()`. -/
def MatchM.loc (m : MatchM) : Nat × Nat := (m.mfrom, m.mto)

/-- Modelled from the spec: `Match::sub_loc(n)` — submatch `0` is the whole
match, submatches `1..9` come from the capture groups. -/
def MatchM.subLoc (m : MatchM) (n : Nat) : Option (Nat × Nat) :=
  if n = 0 then some (m.mfrom, m.mto) else (m.groups.getD (n - 1) none)

/-- Modelled from the spec: `Match::apply_offset(offset)` — shift every
location of the match by the signed `offset` (clamping at zero where the
Rust cast back to `usize` would underflow). -/
def MatchM.applyOffset (off : Int) (m : MatchM) : MatchM :=
  let sh : Nat → Nat := fun i => ((i : Int) + off).toNat
  ⟨sh m.mfrom, sh m.mto,
    m.groups.map (Option.map (fun p => (sh p.1, sh p.2)))⟩

/-- Modelled from the spec: a compiled forward regex, as the engine observes
it: `match_iter(iter_between(f, t), f)` is a function of the text and the
window, returning the first match at or after `f` inside `[f, t)` (a match
may be empty, and may end exactly at `t`).  `wf` records exactly the bounds
that a scan of the bounded iterator guarantees. -/
structure RegexM where
  matchFn : List Char → Nat → Nat → Option MatchM
  wf : ∀ text f t m, matchFn text f t = some m →
      f ≤ m.mfrom ∧ m.mfrom ≤ m.mto ∧ m.mto ≤ t

/-- Modelled from the spec: a reverse-compiled regex (the minus-slash
backward address form), as observed through
`match_iter(rev_iter_between(f, 0), f)`. -/
structure RegexBackM where
  matchFn : List Char → Nat → Nat → Option MatchM

/-! ## The command AST and the engine's error type -/

/-- The `Expr` command AST (`exec/expr.rs` is outside the covered sources;
the variants are exactly those matched by `Program::step` and listed by the
spec).  Templates are character lists. -/
inductive ExprM where
  | Group (g : List (List ExprM))
  | LoopMatches (re : RegexM)
  | LoopBetweenMatches (re : RegexM)
  | IfContains (re : RegexM)
  | IfNotContains (re : RegexM)
  | Print (tpl : List Char)
  | Insert (tpl : List Char)
  | Append (tpl : List Char)
  | Change (tpl : List Char)
  | Sub (re : RegexM) (tpl : List Char)
  | Delete

/-- The engine's `Error` enum (`exec/mod.rs`).  The payload of
`InvalidRegex` (the external regex engine's error type) is not modelled. -/
inductive Err where
  | EmptyExpressionGroup
  | EmptyExpressionGroupBranch
  | EmptyProgram
  | Eof
  | InvalidRegex
  | InvalidSubstitution (n : Nat)
  | InvalidSuffix
  | MissingAction
  | MissingDelimiter (kind : String)
  | UnclosedDelimiter (kind : String) (c : Char)
  | UnclosedExpressionGroup
  | UnclosedExpressionGroupBranch
  | UnexpectedCharacter (c : Char)
deriving DecidableEq, Repr

/-! ## The validator (`validate` in `exec/mod.rs`) -/

/-- Whether an expression is an *action* — the alternatives accepted by the
final `matches!` of `validate`. -/
def isAction : ExprM → Bool
  | .Group _ => true
  | .Insert _ => true
  | .Append _ => true
  | .Change _ => true
  | .Sub _ _ => true
  | .Print _ => true
  | .Delete => true
  | _ => false

mutual

/-- `validate(exprs)`: reject `[]` with `EmptyProgram`, recursively validate
every branch of every `Group`, then require the last expression to be an
action (`MissingAction` otherwise). -/
def validate : List ExprM → Except Err Unit
  | [] => .error .EmptyProgram
  | e :: rest =>
    match validateGroups (e :: rest) with
    | .error err => .error err
    | .ok () =>
      if isAction ((e :: rest).getLast (List.cons_ne_nil e rest)) then .ok () else .error .MissingAction
termination_by es => (sizeOf es, 1)
decreasing_by all_goals simp_wf <;> omega

/-- The first `for` loop of `validate`: recurse into the branches of every
`Group` in the list. -/
def validateGroups : List ExprM → Except Err Unit
  | [] => .ok ()
  | .Group g :: rest =>
    match validateBranches g with
    | .error err => .error err
    | .ok () => validateGroups rest
  | _ :: rest => validateGroups rest
termination_by es => (sizeOf es, 0)
decreasing_by all_goals simp_wf <;> omega

/-- The inner `for` loop of `validate`: validate each branch of one group. -/
def validateBranches : List (List ExprM) → Except Err Unit
  | [] => .ok ()
  | b :: rest =>
    match validate b with
    | .error err => .error err
    | .ok () => validateBranches rest
termination_by g => (sizeOf g, 0)
decreasing_by all_goals simp_wf <;> omega

end

/-- The validation stage of `Program::try_parse`: an empty expression list is
accepted without calling `validate`; otherwise `validate` runs. -/
def programValidation (exprs : List ExprM) : Except Err Unit :=
  if exprs.isEmpty then .ok () else validate exprs

mutual

/-- The claim's recursive last-expression criterion: a list is *bad* when it
is non-empty and does not end in an action, or some branch of some `Group`
in it is (recursively) bad. -/
def endsBad : List ExprM → Bool
  | [] => false
  | e :: rest => !isAction ((e :: rest).getLast (List.cons_ne_nil e rest)) || groupsBad (e :: rest)
termination_by es => (sizeOf es, 1)
decreasing_by all_goals simp_wf <;> omega

/-- Whether some `Group` in the list has a (recursively) bad branch. -/
def groupsBad : List ExprM → Bool
  | [] => false
  | .Group g :: rest => branchesBad g || groupsBad rest
  | _ :: rest => groupsBad rest
termination_by es => (sizeOf es, 0)
decreasing_by all_goals simp_wf <;> omega

/-- Whether some branch in the group is (recursively) bad. -/
def branchesBad : List (List ExprM) → Bool
  | [] => false
  | b :: rest => endsBad b || branchesBad rest
termination_by g => (sizeOf g, 0)
decreasing_by all_goals simp_wf <;> omega

end

mutual

/-- Whether every `Group` branch in the list, hereditarily, is non-empty. -/
def noEmptyBranches : List ExprM → Bool
  | [] => true
  | .Group g :: rest => branchesNE g && noEmptyBranches rest
  | _ :: rest => noEmptyBranches rest
termination_by es => sizeOf es
decreasing_by all_goals simp_wf <;> omega

/-- Whether every branch of one group is non-empty, hereditarily. -/
def branchesNE : List (List ExprM) → Bool
  | [] => true
  | b :: rest => !b.isEmpty && noEmptyBranches b && branchesNE rest
termination_by g => sizeOf g
decreasing_by all_goals simp_wf <;> omega

end

/-! ## The editable-text target (`Edit` implemented by `Buffer`), instrumented -/

/-- The state of the `Edit` target: buffer text, buffer dot, accumulated
`Print` output, and instrumentation counters for the calls the engine makes
(`begin_edit_transaction`, `end_edit_transaction`, dispatched insertions and
dispatched delete actions). -/
structure St where
  text : List Char
  dot : Dot
  outAcc : List Char
  begins : Nat
  ends : Nat
  inserts : Nat
  removes : Nat
deriving DecidableEq, Repr

/-- `impl Edit for Buffer :: insert`: set the dot to a cursor at `ix` and
dispatch an `InsertString` action (modelled as inserting into the text and
counting one dispatched insertion; the action system itself is outside the
covered sources). -/
def St.insert (st : St) (ix : Nat) (s : List Char) : St :=
  { st with
    text := insertChars st.text ix s
    dot := ⟨ix, ix⟩
    inserts := st.inserts + 1 }

/-- `impl Edit for Buffer :: remove`: return immediately when `from == to`,
otherwise set the dot to the inclusive range `[f, t-1]` and dispatch a
`Delete` action (modelled as removing `[f, t)` from the text and counting one
dispatched delete). -/
def St.remove (st : St) (f t : Nat) : St :=
  if f = t then st
  else
    { st with
      text := removeChars st.text f t
      dot := Dot.fromCharIndices f (t - 1)
      removes := st.removes + 1 }

/-- `begin_edit_transaction` for `Buffer` (a new edit-log transaction,
counted). -/
def St.beginTx (st : St) : St := { st with begins := st.begins + 1 }

/-- `end_edit_transaction` for `Buffer` (a new edit-log transaction,
counted). -/
def St.endTx (st : St) : St := { st with ends := st.ends + 1 }

/-- `Edit::submatch(m, n)`: the characters of submatch `n`, when present. -/
def St.submatch (st : St) (m : MatchM) (n : Nat) : Option (List Char) :=
  (m.subLoc n).map (fun p => sliceChars st.text p.1 p.2)

/-! ## The template expander (`template_match` in `exec/mod.rs`) -/

/-- The `$FILENAME` template variable. -/
def fnameVar : List Char := "$FILENAME".toList

/-- The token `$n` for a digit `n` (the entries of the `vars` array). -/
def varTok (n : Nat) : List Char := ['$', Char.ofNat (48 + n)]

/-- The enumerated `vars` array of `template_match`: `$0` to `$9` with their
indices. -/
def varsList : List (Nat × List Char) := (List.range 10).map (fun n => (n, varTok n))

/-- The `for (n, var) in vars` loop of `template_match`: containment is
checked against the original template `s`, replacement is applied to the
working `out`; a contained variable whose submatch is absent aborts with
`InvalidSubstitution`. -/
def templateVars (s : List Char) (m : MatchM) (st : St) :
    List (Nat × List Char) → List Char → Except Err (List Char)
  | [], out => .ok out
  | (n, var) :: rest, out =>
    if containsTok var s then
      match st.submatch m n with
      | some sm => templateVars s m st rest (replaceAll var sm out)
      | none => .error (.InvalidSubstitution n)
    else templateVars s m st rest out

/-- `template_match(s, m, ed, fname)`: substitute `$FILENAME` (when present
in `s`), replace the escapes `\n` and `\t`, then run the `$0..$9` loop. -/
def templateMatch (s : List Char) (m : MatchM) (st : St) (fname : List Char) :
    Except Err (List Char) :=
  let out0 := if containsTok fnameVar s then replaceAll fnameVar fname s else s
  let out1 := replaceAll ['\\', 'n'] ['\n'] out0
  let out2 := replaceAll ['\\', 't'] ['\t'] out1
  templateVars s m st varsList out2

/-! ## Delimited-regex parsing (`parse_delimited_regex` in `exec/addr.rs`) -/

/-- The address parser's `ParseError` (`exec/addr.rs`); the payload of
`InvalidRegex` is not modelled. -/
inductive ParseErr where
  | InvalidRegex
  | InvalidSuffix
  | NotAnAddress
  | UnclosedDelimiter
  | UnexpectedCharacter (c : Char)
deriving DecidableEq, Repr

/-- The scanning loop of `parse_delimited_regex`: `prev` is the previously
consumed character (initially `'/'`), `acc` the reversed pattern so far.  A
`'/'` whose predecessor is not `'\'` closes the delimiter; end of input
before that is `UnclosedDelimiter`.  The model returns the consumed pattern
and the unconsumed rest of the stream; the compilation of the pattern
(`Regex::compile` / `compile_reverse`, outside the covered sources) is not
modelled. -/
def pdrGo : List Char → Char → List Char → Except ParseErr (List Char × List Char)
  | [], _, _ => .error .UnclosedDelimiter
  | ch :: rest, prev, acc =>
    if ch = '/' ∧ prev ≠ '\\' then .ok (acc.reverse, rest)
    else pdrGo rest ch (ch :: acc)

/-- `parse_delimited_regex`, as observed on the character stream: consume the
delimited pattern or fail with `UnclosedDelimiter`. -/
def parseDelimitedRegex (input : List Char) : Except ParseErr (List Char × List Char) :=
  pdrGo input '/' []

/-- The claim's description of the same scan: the index of the first
unescaped `'/'` in the stream, where a backslash escapes the character that
follows it — i.e. the first `'/'` not immediately preceded by `'\'`
(`prev` starts as `'/'`, so a leading `'/'` closes at once). -/
def findClose : List Char → Char → Option Nat
  | [], _ => none
  | c :: tl, prev =>
    if c = '/' ∧ prev ≠ '\\' then some 0
    else (findClose tl c).map (· + 1)

/-! ## The address evaluator (`Address` trait in `exec/addr.rs`) -/

/-- The `AddrBase` primitives (`exec/addr.rs`). -/
inductive AddrBaseM where
  | Current
  | CurrentLine
  | Bol
  | Eol
  | Bof
  | Eof
  | Line (n : Nat)
  | RelativeLine (off : Int)
  | Char (n : Nat)
  | RelativeChar (off : Int)
  | LineAndColumn (line col : Nat)
  | Regex (re : RegexM)
  | RegexBack (re : RegexBackM)

/-- `SimpleAddr`: a base plus suffixes. -/
structure SimpleAddrM where
  base : AddrBaseM
  suffixes : List AddrBaseM

/-- `Addr` (`exec/addr.rs`). -/
inductive AddrM where
  | Explicit (d : Dot)
  | Simple (a : SimpleAddrM)
  | Compound (a b : SimpleAddrM)

/-- The capability the `Address` trait consumes, as an abstract record: the
text (fed to regex scans), its length, the four line/char lookups (absent
results are `none`), and the current dot.  `GapBuffer`/`Buffer` provide
concrete instances whose lookups live outside the covered sources. -/
structure CharSrc where
  text : List Char
  lenChars : Nat
  lineToChar : Nat → Option Nat
  charToLine : Nat → Option Nat
  charToLineStart : Nat → Option Nat
  charToLineEnd : Nat → Option Nat
  currentDot : Dot

/-- The trait's default `max_iter` — `len_chars()`. -/
def CharSrc.maxIter (src : CharSrc) : Nat := src.lenChars

/-- The wrap-around of Rust's `as usize` applied to a possibly negative
`isize` value. -/
def usizeCast (i : Int) : Nat := (i.emod (2 ^ 64)).toNat

/-- Modelled from the spec: `first_cur` of a dot — its start. -/
def Dot.firstCur (d : Dot) : Nat := d.dfrom

/-- Modelled from the spec: `last_cur` of a dot — its end. -/
def Dot.lastCur (d : Dot) : Nat := d.dto

/-- Modelled from the spec: `active_cur` of a dot.  Dots built by the
evaluator carry `start_active = false`, so the active cursor is the end. -/
def Dot.activeCur (d : Dot) : Nat := d.dto

/-- Modelled from the spec: `Range::from_cursors(c1, c2, false)`, keeping the
data-model invariant `start ≤ end` by ordering the cursors. -/
def Dot.fromCursors (c1 c2 : Nat) : Dot := ⟨min c1 c2, max c1 c2⟩

/-- `Address::full_line(line_idx)`: from the first character of the line to
one before the character that ends it (saturating). -/
def CharSrc.fullLine (src : CharSrc) (lineIdx : Nat) : Option Dot := do
  let f ← src.lineToChar lineIdx
  let e ← src.charToLineEnd f
  pure (Dot.fromCharIndices f (e - 1))

/-- `Address::map_addr_base`, one `AddrBase` against the prior dot. -/
def CharSrc.mapAddrBase (src : CharSrc) (b : AddrBaseM) (cur : Dot) : Option Dot :=
  match b with
  | .Current => some cur
  | .Bof => some ⟨0, 0⟩
  | .Eof => some ⟨src.maxIter, src.maxIter⟩
  | .Bol => do
    let f ← src.charToLineStart cur.dfrom
    pure (Dot.fromCharIndices f cur.dto)
  | .Eol => do
    let t ← src.charToLineEnd cur.dto
    pure (Dot.fromCharIndices cur.dfrom t)
  | .CurrentLine => do
    let f ← src.charToLineStart cur.dfrom
    let t ← src.charToLineEnd cur.dto
    pure (Dot.fromCharIndices f t)
  | .Line n => src.fullLine n
  | .RelativeLine off => do
    let li ← src.charToLine cur.activeCur
    src.fullLine (usizeCast ((li : Int) + off))
  | .Char n => some ⟨n, n⟩
  | .RelativeChar off =>
    let i := usizeCast ((cur.activeCur : Int) + off)
    some ⟨i, i⟩
  | .LineAndColumn line col => do
    let i ← src.lineToChar line
    pure ⟨i + col, i + col⟩
  | .Regex re => do
    let m ← re.matchFn src.text cur.lastCur src.maxIter
    pure (Dot.fromCharIndices m.mfrom (m.mto - 1))
  | .RegexBack re => do
    let m ← re.matchFn src.text cur.firstCur 0
    pure (Dot.fromCharIndices m.mfrom (m.mto - 1))

/-- The suffix loop of `Address::map_simple_addr`: each suffix consumes the
dot produced by its predecessor. -/
def CharSrc.mapSuffixes (src : CharSrc) : List AddrBaseM → Dot → Option Dot
  | [], d => some d
  | suf :: rest, d => do
    let d2 ← src.mapAddrBase suf d
    src.mapSuffixes rest d2

/-- `Address::map_simple_addr`: the base, then each suffix left to right. -/
def CharSrc.mapSimpleAddr (src : CharSrc) (a : SimpleAddrM) (cur : Dot) : Option Dot := do
  let d0 ← src.mapAddrBase a.base cur
  src.mapSuffixes a.suffixes d0

/-- `Address::map_compound_addr`. -/
def CharSrc.mapCompoundAddr (src : CharSrc) (a b : SimpleAddrM) : Option Dot := do
  let d ← src.mapSimpleAddr a src.currentDot
  let d2 ← src.mapSimpleAddr b src.currentDot
  pure (Dot.fromCursors d.firstCur d2.lastCur)

/-- `Address::map_addr`: evaluate, defaulting an absent dot, then clamp into
`[0, max_iter()]`. -/
def CharSrc.mapAddr (src : CharSrc) (a : AddrM) : Dot :=
  let maybeDot :=
    match a with
    | .Explicit d => some d
    | .Simple sa => src.mapSimpleAddr sa src.currentDot
    | .Compound f t => src.mapCompoundAddr f t
  (maybeDot.getD Dot.default).clamp src.maxIter

/-! ## Concrete line lookups for the model buffer -/

/-- Modelled from the spec: the character indices at which lines start —
index 0, plus the index after every newline ("lines" follow the gap buffer's
convention, whose `try_line_to_char` / `try_char_to_line` are outside the
covered sources). -/
def lineStarts (text : List Char) : List Nat :=
  0 :: ((List.range text.length).filterMap
    (fun i => if text.getD i ' ' = '\n' then some (i + 1) else none))

/-- Modelled from the spec: `try_line_to_char`. -/
def tryLineToChar (text : List Char) (lineIdx : Nat) : Option Nat :=
  (lineStarts text).get? lineIdx

/-- Modelled from the spec: `try_char_to_line` — the line containing a
character index (valid for indices up to and including the length). -/
def tryCharToLine (text : List Char) (charIdx : Nat) : Option Nat :=
  if charIdx ≤ text.length then
    some (((lineStarts text).filter (· ≤ charIdx)).length - 1)
  else none

/-- `impl Address for Buffer :: char_to_line_end`: the start of the next
line, or `len_chars - 1` when there is none. -/
def charToLineEndB (text : List Char) (charIdx : Nat) : Option Nat := do
  let lineIdx ← tryCharToLine text charIdx
  match tryLineToChar text (lineIdx + 1) with
  | none => pure (text.length - 1)
  | some i => pure i

/-- `impl Address for Buffer :: char_to_line_start`. -/
def charToLineStartB (text : List Char) (charIdx : Nat) : Option Nat := do
  let lineIdx ← tryCharToLine text charIdx
  tryLineToChar text lineIdx

/-- The `CharSrc` of an instrumented `Buffer` state (`impl Address for
Buffer`): `current_dot` is the buffer's dot. -/
def St.src (st : St) : CharSrc :=
  { text := st.text
    lenChars := st.text.length
    lineToChar := tryLineToChar st.text
    charToLine := tryCharToLine st.text
    charToLineStart := charToLineStartB st.text
    charToLineEnd := charToLineEndB st.text
    currentDot := st.dot }

/-! ## Match collection (`Expr::LoopMatches` / `Expr::LoopBetweenMatches`) -/

/-- The pre-collection loop of the `LoopMatches` arm of `Program::step`:
repeatedly take the first match in `[f, t)`; a zero-length match at the scan
position advances the cursor by one character (otherwise the cursor moves to
the match end); every match is pushed, and the loop stops once the cursor
reaches `t` or `max_iter`.  Total because a well-formed regex never matches
before the scan position. -/
def collectMatches (re : RegexM) (text : List Char) (f t mi : Nat) :
    List MatchM :=
  match h : re.matchFn text f t with
  | none => []
  | some m =>
    if hz : m.mto = f then
      if t ≤ f + 1 ∨ mi ≤ f + 1 then [m]
      else m :: collectMatches re text (f + 1) t mi
    else
      if t ≤ m.mto ∨ mi ≤ m.mto then [m]
      else m :: collectMatches re text m.mto t mi
termination_by t - f
decreasing_by
  · simp_all
    omega
  · have hwf := re.wf text f t m h
    simp_all
    omega

/-- The same loop with an explicit iteration budget: `none` means the budget
was exhausted before the loop stopped. -/
def collectMatchesFuel (fuel : Nat) (re : RegexM) (text : List Char)
    (f t mi : Nat) : Option (List MatchM) :=
  match fuel with
  | 0 => none
  | fuel + 1 =>
    match re.matchFn text f t with
    | none => some []
    | some m =>
      if m.mto = f then
        if t ≤ f + 1 ∨ mi ≤ f + 1 then some [m]
        else (collectMatchesFuel fuel re text (f + 1) t mi).map (m :: ·)
      else
        if t ≤ m.mto ∨ mi ≤ m.mto then some [m]
        else (collectMatchesFuel fuel re text m.mto t mi).map (m :: ·)

/-- The pre-collection loop of the `LoopBetweenMatches` arm, with an
iteration budget: synthetic matches for the non-empty gaps between matched
regions.  (Unlike `LoopMatches` this loop does not force progress on
zero-length matches, so the model carries a budget.) -/
def collectBetween (fuel : Nat) (re : RegexM) (text : List Char)
    (f t mi : Nat) : Option (List MatchM) :=
  match fuel with
  | 0 => none
  | fuel + 1 =>
    match re.matchFn text f t with
    | none =>
      some (if f < t then [MatchM.synthetic f t] else [])
    | some m =>
      let gap := if f < m.mfrom then [MatchM.synthetic f m.mfrom] else []
      if t < m.mto ∨ mi ≤ m.mto then
        some (gap ++ if m.mto < t then [MatchM.synthetic m.mto t] else [])
      else (collectBetween fuel re text m.mto t mi).map (gap ++ ·)

/-! ## The execution engine (`Program::execute` / `step` / `apply_matches`) -/

/-- `Program`: an initial address and the expression pipeline. -/
structure ProgramM where
  initial_dot : AddrM
  exprs : List ExprM

/-- The outcome alternatives of a `step`/`execute` call in the model:
a returned engine `Error`, the Rust indexing panic on `exprs[pc]` when `pc`
is out of bounds, and exhaustion of the model's recursion budget (`fuelOut`
never arises for the budgets used by the theorems below). -/
inductive ExecErr where
  | err (e : Err)
  | oob
  | fuelOut
deriving DecidableEq, Repr

/-- The loop of `Program::apply_matches`, parameterised by the step the loop
body runs (`step(ed, m, pc + 1, fname, out)` in the source): run it for each
pre-collected match, shifting each match by the running length `offset`
before it runs and updating the offset from the length change afterwards;
the result is the last step's dot (or the starting `dot` when the list is
empty).  An error aborts the loop. -/
def applyGo (stepAt : MatchM → St → Except ExecErr Dot × St) :
    List MatchM → Int → Dot → St → Except ExecErr Dot × St
  | [], _, dot, st => (.ok dot, st)
  | mm :: rest, offset, dot, st =>
    let mm2 := MatchM.applyOffset offset mm
    let curLen := st.text.length
    match stepAt mm2 st with
    | (.error e, st2) => (.error e, st2)
    | (.ok d, st2) =>
      applyGo stepAt rest (offset + ((st2.text.length : Int) - (curLen : Int))) d st2

/-- The `Group` arm of `Program::step`, parameterised by the sub-program
step (`p.step(ed, m, 0, fname, out)` in the source): run each branch in turn
(each branch steps from the same outer match; the recorded dot is the last
branch's result).  The `Explicit` initial dot the source stores in the
throwaway sub-`Program` is never read by `step` and is not modelled. -/
def runGroup (stepBranch : List ExprM → St → Except ExecErr Dot × St) :
    List (List ExprM) → Dot → St → Except ExecErr Dot × St
  | [], dot, st => (.ok dot, st)
  | branch :: rest, dot, st =>
    match stepBranch branch st with
    | (.error e, st2) => (.error e, st2)
    | (.ok d, st2) => runGroup stepBranch rest d st2

/-- `Program::step(ed, m, pc, fname, out)`, instrumented: dispatch on
`exprs[pc]` and return the produced dot together with the updated editor
state.  `fuel` bounds the recursion depth (each nested `step` runs with one
unit less). -/
def stepF (fuel : Nat) (exprs : List ExprM) (pc : Nat) (m : MatchM)
    (fname : List Char) (st : St) : Except ExecErr Dot × St :=
  match fuel with
  | 0 => (.error .fuelOut, st)
  | fuel + 1 =>
    match exprs[pc]? with
    | none => (.error .oob, st)
    | some e =>
      let f := m.mfrom
      let t := m.mto
      match e with
      | .Group g =>
        runGroup (fun branch st2 => stepF fuel branch 0 m fname st2) g
          (Dot.fromCharIndices f t) st
      | .LoopMatches re =>
        applyGo (fun m2 st2 => stepF fuel exprs (pc + 1) m2 fname st2)
          (collectMatches re st.text f t st.text.length)
          0 (Dot.fromCharIndices f t) st
      | .LoopBetweenMatches re =>
        match collectBetween fuel re st.text f t st.text.length with
        | none => (.error .fuelOut, st)
        | some ms =>
          applyGo (fun m2 st2 => stepF fuel exprs (pc + 1) m2 fname st2) ms
            0 (Dot.fromCharIndices f t) st
      | .IfContains re =>
        if (re.matchFn st.text f t).isSome then stepF fuel exprs (pc + 1) m fname st
        else (.ok (Dot.fromCharIndices f t), st)
      | .IfNotContains re =>
        if !(re.matchFn st.text f t).isSome then stepF fuel exprs (pc + 1) m fname st
        else (.ok (Dot.fromCharIndices f t), st)
      | .Print tpl =>
        match templateMatch tpl m st fname with
        | .error e => (.error (.err e), st)
        | .ok s => (.ok (Dot.fromCharIndices f t), { st with outAcc := st.outAcc ++ s })
      | .Insert tpl =>
        match templateMatch tpl m st fname with
        | .error e => (.error (.err e), st)
        | .ok s => (.ok (Dot.fromCharIndices f (t + s.length)), st.insert f s)
      | .Append tpl =>
        match templateMatch tpl m st fname with
        | .error e => (.error (.err e), st)
        | .ok s => (.ok (Dot.fromCharIndices f (t + s.length)), st.insert t s)
      | .Change tpl =>
        match templateMatch tpl m st fname with
        | .error e => (.error (.err e), st)
        | .ok s => (.ok (Dot.fromCharIndices f (f + s.length)), (st.remove f t).insert f s)
      | .Delete => (.ok (Dot.fromCharIndices f f), st.remove f t)
      | .Sub re tpl =>
        match re.matchFn st.text f t with
        | some mm =>
          match templateMatch tpl mm st fname with
          | .error e => (.error (.err e), st)
          | .ok s =>
            (.ok (Dot.fromCharIndices f (t - (mm.mto - mm.mfrom) + s.length)),
              (st.remove mm.mfrom mm.mto).insert mm.mfrom s)
        | none => (.ok (Dot.fromCharIndices f t), st)

/-- `Program::execute(ed, fname, out)`: resolve the initial dot; an empty
pipeline returns it unchanged.  Otherwise build the synthetic match
`[from, to + 1)`, open a transaction, `step`, close the transaction, and
clamp the resulting char indices to the (possibly edited) buffer length.
As in the source, a `step` error propagates *before* `end_edit_transaction`
runs. -/
def executeF (fuel : Nat) (p : ProgramM) (fname : List Char) (st : St) :
    Except ExecErr Dot × St :=
  let d0 := st.src.mapAddr p.initial_dot
  if p.exprs.isEmpty then (.ok d0, st)
  else
    let m := MatchM.synthetic d0.dfrom (d0.dto + 1)
    match stepF fuel p.exprs 0 m fname st.beginTx with
    | (.error e, st2) => (.error e, st2)
    | (.ok d, st2) =>
      let st3 := st2.endTx
      let mx := st3.text.length
      (.ok (Dot.fromCharIndices (min d.dfrom mx) (min d.dto mx)), st3)

/-! ## Concrete regexes for witnesses -/

/-- First position in `[f, t)` where the literal `pat` occurs entirely
inside the window. -/
def litFind (pat text : List Char) (f t : Nat) : Option Nat :=
  (List.range' f (t - f)).find?
    (fun i => decide (i + pat.length ≤ t) && ((text.drop i).take pat.length == pat))

/-- A literal-string regex: its first match in the window `[f, t)`. -/
def litRegex (pat : List Char) : RegexM where
  matchFn := fun text f t => (litFind pat text f t).map (fun i => ⟨i, i + pat.length, []⟩)
  wf := by
    intro text f t m h
    simp only [litFind, Option.map_eq_some'] at h
    obtain ⟨i, hi, rfl⟩ := h
    have hmem := List.mem_of_find?_eq_some hi
    have hp := List.find?_some hi
    simp only [List.mem_range'_1] at hmem
    simp only [Bool.and_eq_true, decide_eq_true_eq] at hp
    exact ⟨hmem.1, Nat.le_add_right i pat.length, hp.1⟩

/-- A regex matching the empty string at every scan position of a non-empty
window range (`f ≤ t`). -/
def emptyRegex : RegexM where
  matchFn := fun _ f t => if f ≤ t then some ⟨f, f, []⟩ else none
  wf := by
    intro text f t m h
    simp only at h
    split at h
    · cases h
      simpa using by omega
    · cases h

/-! ## Claim-side descriptions used by the template-expansion claim -/

/-- The first `n` in `0..9` whose token `$n` occurs in the template `s` but
whose submatch is absent from `m`. -/
def firstFailingVar (s : List Char) (m : MatchM) (st : St) : Option Nat :=
  (List.range 10).find?
    (fun n => containsTok (varTok n) s && (st.submatch m n).isNone)

/-- The claim-side success result of the variable loop: for each variable in
order, when its token occurs in the original `s`, replace all its
occurrences in the working output with its submatch text. -/
def applyPresentVars (s : List Char) (m : MatchM) (st : St) :
    List (Nat × List Char) → List Char → List Char
  | [], out => out
  | (n, var) :: rest, out =>
    if containsTok var s then
      applyPresentVars s m st rest (replaceAll var ((st.submatch m n).getD []) out)
    else applyPresentVars s m st rest out

/-! ## Shared lemmas -/

theorem insertChars_length (text : List Char) (idx : Nat) (s : List Char) :
    (insertChars text idx s).length = text.length + s.length := by
  simp [insertChars]
  omega

theorem St.insert_begins (st : St) (ix : Nat) (s : List Char) :
    (st.insert ix s).begins = st.begins := rfl

theorem St.insert_ends (st : St) (ix : Nat) (s : List Char) :
    (st.insert ix s).ends = st.ends := rfl

theorem St.remove_begins (st : St) (f t : Nat) :
    (st.remove f t).begins = st.begins := by
  unfold St.remove
  split <;> rfl

theorem St.remove_ends (st : St) (f t : Nat) :
    (st.remove f t).ends = st.ends := by
  unfold St.remove
  split <;> rfl

theorem St.insert_text_length (st : St) (ix : Nat) (s : List Char) :
    (st.insert ix s).text.length = st.text.length + s.length := by
  simp [St.insert, insertChars_length]

theorem applyGo_counters (stepAt : MatchM → St → Except ExecErr Dot × St)
    (hs : ∀ m st, (stepAt m st).2.begins = st.begins ∧ (stepAt m st).2.ends = st.ends)
    (ms : List MatchM) :
    ∀ (offset : Int) (dot : Dot) (st : St),
      (applyGo stepAt ms offset dot st).2.begins = st.begins ∧
      (applyGo stepAt ms offset dot st).2.ends = st.ends := by
  induction ms with
  | nil => intro offset dot st; exact ⟨rfl, rfl⟩
  | cons mm rest ih =>
    intro offset dot st
    have h2 := hs (MatchM.applyOffset offset mm) st
    rcases h : stepAt (MatchM.applyOffset offset mm) st with ⟨r, st2⟩
    rw [h] at h2
    cases r with
    | error e => simpa [applyGo, h] using h2
    | ok d =>
      have h3 := ih (offset + ((st2.text.length : Int) - (st.text.length : Int))) d st2
      simp only [applyGo, h]
      exact ⟨h3.1.trans h2.1, h3.2.trans h2.2⟩

theorem runGroup_counters (stepBranch : List ExprM → St → Except ExecErr Dot × St)
    (hs : ∀ branch st, (stepBranch branch st).2.begins = st.begins ∧
      (stepBranch branch st).2.ends = st.ends)
    (g : List (List ExprM)) :
    ∀ (dot : Dot) (st : St),
      (runGroup stepBranch g dot st).2.begins = st.begins ∧
      (runGroup stepBranch g dot st).2.ends = st.ends := by
  induction g with
  | nil => intro dot st; exact ⟨rfl, rfl⟩
  | cons branch rest ih =>
    intro dot st
    have h2 := hs branch st
    rcases h : stepBranch branch st with ⟨r, st2⟩
    rw [h] at h2
    cases r with
    | error e => simpa [runGroup, h] using h2
    | ok d =>
      have h3 := ih d st2
      simp only [runGroup, h]
      exact ⟨h3.1.trans h2.1, h3.2.trans h2.2⟩

theorem stepF_counters (fuel : Nat) :
    ∀ (exprs : List ExprM) (pc : Nat) (m : MatchM) (fname : List Char) (st : St),
      (stepF fuel exprs pc m fname st).2.begins = st.begins ∧
      (stepF fuel exprs pc m fname st).2.ends = st.ends := by
  induction fuel with
  | zero => intro exprs pc m fname st; exact ⟨rfl, rfl⟩
  | succ fuel ih =>
    intro exprs pc m fname st
    rw [stepF]
    cases hget : exprs[pc]? with
    | none => exact ⟨rfl, rfl⟩
    | some e =>
      cases e with
      | Group g =>
        exact runGroup_counters _ (fun branch st2 => ih branch 0 m fname st2) g _ st
      | LoopMatches re =>
        exact applyGo_counters _ (fun m2 st2 => ih exprs (pc + 1) m2 fname st2) _ 0 _ st
      | LoopBetweenMatches re =>
        rcases hcb : collectBetween fuel re st.text m.mfrom m.mto st.text.length with _ | ms
        · simp [hcb]
        · simp only [hcb]
          exact applyGo_counters _ (fun m2 st2 => ih exprs (pc + 1) m2 fname st2) ms 0 _ st
      | IfContains re =>
        by_cases hc : (re.matchFn st.text m.mfrom m.mto).isSome <;>
          simp [hc, ih exprs (pc + 1) m fname st]
      | IfNotContains re =>
        by_cases hc : (re.matchFn st.text m.mfrom m.mto).isSome <;>
          simp [hc, ih exprs (pc + 1) m fname st]
      | Print tpl =>
        rcases htm : templateMatch tpl m st fname with e2 | s2 <;> simp [htm]
      | Insert tpl =>
        rcases htm : templateMatch tpl m st fname with e2 | s2 <;>
          simp [htm, St.insert_begins, St.insert_ends]
      | Append tpl =>
        rcases htm : templateMatch tpl m st fname with e2 | s2 <;>
          simp [htm, St.insert_begins, St.insert_ends]
      | Change tpl =>
        rcases htm : templateMatch tpl m st fname with e2 | s2 <;>
          simp [htm, St.insert_begins, St.insert_ends, St.remove_begins, St.remove_ends]
      | Delete => simp [St.remove_begins, St.remove_ends]
      | Sub re tpl =>
        rcases hm : re.matchFn st.text m.mfrom m.mto with _ | mm
        · simp [hm]
        · rcases htm : templateMatch tpl mm st fname with e2 | s2 <;>
            simp [htm, hm, St.insert_begins, St.insert_ends, St.remove_begins, St.remove_ends]

/-! ## C1 — transaction pairing in `Program::execute` -/

/-- Counterexample for C1. The claim says `end_edit_transaction` is called
on every exit path of `execute`, including when `step` returns an error.  On
the concrete program `p/$1/` over an `Explicit` dot (a valid program: `Print`
is an action) the synthetic match has no submatch 1, `step` fails with
`InvalidSubstitution(1)`, and `execute` returns with the transaction counter
showing one `begin` and zero `end` calls: the `?` on `step` returns before
`end_edit_transaction` runs. -/
theorem execute_end_tx_counterexample :
    (executeF 2 ⟨.Explicit ⟨0, 0⟩, [.Print ['$', '1']]⟩ ['f']
        ⟨['a', 'b', 'c'], ⟨0, 0⟩, [], 0, 0, 0, 0⟩).1
      = .error (.err (.InvalidSubstitution 1)) ∧
    (executeF 2 ⟨.Explicit ⟨0, 0⟩, [.Print ['$', '1']]⟩ ['f']
        ⟨['a', 'b', 'c'], ⟨0, 0⟩, [], 0, 0, 0, 0⟩).2.begins = 1 ∧
    (executeF 2 ⟨.Explicit ⟨0, 0⟩, [.Print ['$', '1']]⟩ ['f']
        ⟨['a', 'b', 'c'], ⟨0, 0⟩, [], 0, 0, 0, 0⟩).2.ends = 0 :=
  ⟨rfl, rfl, rfl⟩

/-- Amended C1. For every program with non-empty `exprs` and every
`Edit` target, one `execute` call invokes `begin_edit_transaction` exactly
once; it invokes `end_edit_transaction` exactly once when `step` succeeds,
and when `step` returns an error it propagates the error *without* calling
`end_edit_transaction` (in the source the `?` on `step` returns first). -/
theorem execute_transaction_pairing (fuel : Nat) (p : ProgramM)
    (fname : List Char) (st : St) (hne : p.exprs ≠ []) :
    (executeF fuel p fname st).2.begins = st.begins + 1 ∧
    (∀ d, (executeF fuel p fname st).1 = .ok d →
      (executeF fuel p fname st).2.ends = st.ends + 1) ∧
    (∀ e, (executeF fuel p fname st).1 = .error e →
      (executeF fuel p fname st).2.ends = st.ends) := by
  have hemp : p.exprs.isEmpty = false := by
    simpa [List.isEmpty_iff] using hne
  have hc := stepF_counters fuel p.exprs 0
    (MatchM.synthetic (st.src.mapAddr p.initial_dot).dfrom
      ((st.src.mapAddr p.initial_dot).dto + 1)) fname st.beginTx
  unfold executeF
  simp only [hemp, Bool.false_eq_true, if_false]
  rcases h : stepF fuel p.exprs 0
      (MatchM.synthetic (st.src.mapAddr p.initial_dot).dfrom
        ((st.src.mapAddr p.initial_dot).dto + 1)) fname st.beginTx with ⟨r, st2⟩
  rw [h] at hc
  simp only [St.beginTx] at hc
  cases r with
  | error e =>
    simp only [h]
    refine ⟨hc.1, ?_, ?_⟩
    · intro d hd
      exact absurd hd (by simp)
    · intro e2 _
      exact hc.2
  | ok d =>
    simp only [h, St.endTx]
    refine ⟨hc.1, ?_, ?_⟩
    · intro d2 _
      omega
    · intro e2 he
      exact absurd he (by simp)

/-- Witness for `execute_transaction_pairing` at the concrete program `, d`
over a three-character buffer. -/
theorem execute_transaction_pairing_witness :
    ((⟨.Explicit ⟨0, 1⟩, [.Delete]⟩ : ProgramM).exprs ≠ []) ∧
    ((executeF 2 ⟨.Explicit ⟨0, 1⟩, [.Delete]⟩ []
        ⟨['a', 'b', 'c'], ⟨0, 0⟩, [], 0, 0, 0, 0⟩).2.begins
      = (⟨['a', 'b', 'c'], ⟨0, 0⟩, [], 0, 0, 0, 0⟩ : St).begins + 1 ∧
    (∀ d, (executeF 2 ⟨.Explicit ⟨0, 1⟩, [.Delete]⟩ []
        ⟨['a', 'b', 'c'], ⟨0, 0⟩, [], 0, 0, 0, 0⟩).1 = .ok d →
      (executeF 2 ⟨.Explicit ⟨0, 1⟩, [.Delete]⟩ []
        ⟨['a', 'b', 'c'], ⟨0, 0⟩, [], 0, 0, 0, 0⟩).2.ends
        = (⟨['a', 'b', 'c'], ⟨0, 0⟩, [], 0, 0, 0, 0⟩ : St).ends + 1) ∧
    (∀ e, (executeF 2 ⟨.Explicit ⟨0, 1⟩, [.Delete]⟩ []
        ⟨['a', 'b', 'c'], ⟨0, 0⟩, [], 0, 0, 0, 0⟩).1 = .error e →
      (executeF 2 ⟨.Explicit ⟨0, 1⟩, [.Delete]⟩ []
        ⟨['a', 'b', 'c'], ⟨0, 0⟩, [], 0, 0, 0, 0⟩).2.ends
        = (⟨['a', 'b', 'c'], ⟨0, 0⟩, [], 0, 0, 0, 0⟩ : St).ends)) :=
  ⟨by simp, execute_transaction_pairing 2 _ _ _ (by simp)⟩

theorem collectMatchesFuel_eq (re : RegexM) (text : List Char) (t mi : Nat) :
    ∀ (fuel f : Nat), t - f < fuel →
      collectMatchesFuel fuel re text f t mi = some (collectMatches re text f t mi) := by
  intro fuel
  induction fuel with
  | zero => intro f h; omega
  | succ fuel ih =>
    intro f h
    rw [collectMatches.eq_def, collectMatchesFuel]
    cases hm : re.matchFn text f t with
    | none => rfl
    | some m =>
      have hwf := re.wf text f t m hm
      by_cases hz : m.mto = f
      · by_cases hbr : t ≤ f + 1 ∨ mi ≤ f + 1
        · simp [hz, hbr]
        · have hnt : f + 1 < t := by
            rcases not_or.mp hbr with ⟨h1, _⟩
            omega
          simp [hz, hbr, ih (f + 1) (by omega)]
      · by_cases hbr : t ≤ m.mto ∨ mi ≤ m.mto
        · simp [hz, hbr]
        · have hnt : m.mto < t := by
            rcases not_or.mp hbr with ⟨h1, _⟩
            omega
          have : f < m.mto := by omega
          simp [hz, hbr, ih m.mto (by omega)]

/-- Claim C2. For every (well-formed) regex, including regexes matching the
empty string, the match-collection loop of `x/re/` over the finite window
`[f, t)` terminates: the cursor strictly advances each iteration (by one
character when a match ends where the scan started), so an iteration budget
exceeding the window size is never exhausted and the loop's fueled run
equals its unbounded result `collectMatches`. -/
theorem loopMatches_collection_terminates (re : RegexM) (text : List Char)
    (f t mi fuel : Nat) (hfuel : t - f < fuel) :
    collectMatchesFuel fuel re text f t mi = some (collectMatches re text f t mi) :=
  collectMatchesFuel_eq re text t mi fuel f hfuel

/-- Witness for `loopMatches_collection_terminates`: a regex that matches
the empty string at every position of the three-character window still
terminates within the budget. -/
theorem loopMatches_collection_terminates_witness :
    (3 - 0 < 4) ∧
    collectMatchesFuel 4 emptyRegex ['a', 'b', 'c'] 0 3 3
      = some (collectMatches emptyRegex ['a', 'b', 'c'] 0 3 3) :=
  ⟨by omega, loopMatches_collection_terminates emptyRegex ['a', 'b', 'c'] 0 3 3 4 (by omega)⟩

theorem Dot.fromCharIndices_ordered (f t : Nat) :
    (Dot.fromCharIndices f t).dfrom ≤ (Dot.fromCharIndices f t).dto := by
  simp only [Dot.fromCharIndices]
  omega

theorem Dot.fromCursors_ordered (c1 c2 : Nat) :
    (Dot.fromCursors c1 c2).dfrom ≤ (Dot.fromCursors c1 c2).dto := by
  simp only [Dot.fromCursors]
  omega

theorem CharSrc.mapAddrBase_ordered (src : CharSrc) (b : AddrBaseM) (cur : Dot)
    (hcur : cur.dfrom ≤ cur.dto) (d : Dot) (hd : src.mapAddrBase b cur = some d) :
    d.dfrom ≤ d.dto := by
  cases b with
  | Current =>
    simp only [CharSrc.mapAddrBase, Option.some.injEq] at hd
    subst hd; exact hcur
  | Bof =>
    simp only [CharSrc.mapAddrBase, Option.some.injEq] at hd
    subst hd; exact le_refl 0
  | Eof =>
    simp only [CharSrc.mapAddrBase, Option.some.injEq] at hd
    subst hd; exact le_refl _
  | Bol =>
    simp only [CharSrc.mapAddrBase, bind, Option.bind_eq_some, Option.pure_def,
      Option.some.injEq] at hd
    obtain ⟨a, _, hd⟩ := hd
    subst hd; exact Dot.fromCharIndices_ordered ..
  | Eol =>
    simp only [CharSrc.mapAddrBase, bind, Option.bind_eq_some, Option.pure_def,
      Option.some.injEq] at hd
    obtain ⟨a, _, hd⟩ := hd
    subst hd; exact Dot.fromCharIndices_ordered ..
  | CurrentLine =>
    simp only [CharSrc.mapAddrBase, bind, Option.bind_eq_some, Option.pure_def,
      Option.some.injEq] at hd
    obtain ⟨a, _, b2, _, hd⟩ := hd
    subst hd; exact Dot.fromCharIndices_ordered ..
  | Line n =>
    simp only [CharSrc.mapAddrBase, CharSrc.fullLine, bind, Option.bind_eq_some,
      Option.pure_def, Option.some.injEq] at hd
    obtain ⟨a, _, b2, _, hd⟩ := hd
    subst hd; exact Dot.fromCharIndices_ordered ..
  | RelativeLine off =>
    simp only [CharSrc.mapAddrBase, CharSrc.fullLine, bind, Option.bind_eq_some,
      Option.pure_def, Option.some.injEq] at hd
    obtain ⟨a, _, b2, _, c2, _, hd⟩ := hd
    subst hd; exact Dot.fromCharIndices_ordered ..
  | Char n =>
    simp only [CharSrc.mapAddrBase, Option.some.injEq] at hd
    subst hd; exact le_refl _
  | RelativeChar off =>
    simp only [CharSrc.mapAddrBase, Option.some.injEq] at hd
    subst hd; exact le_refl _
  | LineAndColumn line col =>
    simp only [CharSrc.mapAddrBase, bind, Option.bind_eq_some, Option.pure_def,
      Option.some.injEq] at hd
    obtain ⟨a, _, hd⟩ := hd
    subst hd; exact le_refl _
  | Regex re =>
    simp only [CharSrc.mapAddrBase, bind, Option.bind_eq_some, Option.pure_def,
      Option.some.injEq] at hd
    obtain ⟨a, _, hd⟩ := hd
    subst hd; exact Dot.fromCharIndices_ordered ..
  | RegexBack re =>
    simp only [CharSrc.mapAddrBase, bind, Option.bind_eq_some, Option.pure_def,
      Option.some.injEq] at hd
    obtain ⟨a, _, hd⟩ := hd
    subst hd; exact Dot.fromCharIndices_ordered ..

theorem CharSrc.mapSuffixes_ordered (src : CharSrc) (sufs : List AddrBaseM) :
    ∀ (d0 : Dot), d0.dfrom ≤ d0.dto → ∀ d, src.mapSuffixes sufs d0 = some d →
      d.dfrom ≤ d.dto := by
  induction sufs with
  | nil =>
    intro d0 h0 d hd
    simp only [CharSrc.mapSuffixes, Option.some.injEq] at hd
    subst hd; exact h0
  | cons suf rest ih =>
    intro d0 h0 d hd
    simp only [CharSrc.mapSuffixes, bind, Option.bind_eq_some] at hd
    obtain ⟨d1, hd1, hrest⟩ := hd
    exact ih d1 (src.mapAddrBase_ordered suf d0 h0 d1 hd1) d hrest

theorem CharSrc.mapSimpleAddr_ordered (src : CharSrc) (a : SimpleAddrM) (cur : Dot)
    (hcur : cur.dfrom ≤ cur.dto) (d : Dot) (hd : src.mapSimpleAddr a cur = some d) :
    d.dfrom ≤ d.dto := by
  simp only [CharSrc.mapSimpleAddr, bind, Option.bind_eq_some] at hd
  obtain ⟨d0, hd0, hfold⟩ := hd
  exact src.mapSuffixes_ordered a.suffixes d0
    (src.mapAddrBase_ordered a.base cur hcur d0 hd0) d hfold

theorem CharSrc.mapCompoundAddr_ordered (src : CharSrc) (a b : SimpleAddrM)
    (d : Dot) (hd : src.mapCompoundAddr a b = some d) : d.dfrom ≤ d.dto := by
  simp only [CharSrc.mapCompoundAddr, bind, Option.bind_eq_some, Option.pure_def,
    Option.some.injEq] at hd
  obtain ⟨d1, _, d2, _, hd⟩ := hd
  subst hd
  exact Dot.fromCursors_ordered ..

theorem Dot.clamp_bounds (d : Dot) (mx : Nat) (h : d.dfrom ≤ d.dto) :
    (d.clamp mx).dfrom ≤ (d.clamp mx).dto ∧ (d.clamp mx).dto ≤ mx := by
  simp only [Dot.clamp]
  omega

/-- Claim C3. For every `Addr` (`Explicit`, `Simple`, or `Compound`) and every
text source, `map_addr` never fails: it returns a `Dot` whose indices
satisfy `0 ≤ from ≤ to ≤ len_chars`, with absent lookup results collapsing
to the default dot (clamped at the document boundary) rather than an error.
The two hypotheses are the data-model invariant of `Dot` for the dots the
evaluator is handed: the source's `current_dot` and the payload of an
`Explicit` address are well-formed selections. -/
theorem mapAddr_yields_valid_dot (src : CharSrc) (a : AddrM)
    (hcur : src.currentDot.dfrom ≤ src.currentDot.dto)
    (hexp : ∀ d, a = AddrM.Explicit d → d.dfrom ≤ d.dto) :
    (src.mapAddr a).dfrom ≤ (src.mapAddr a).dto ∧
    (src.mapAddr a).dto ≤ src.lenChars := by
  have hmi : src.maxIter = src.lenChars := rfl
  cases a with
  | Explicit d =>
    simp only [CharSrc.mapAddr, Option.getD_some]
    exact hmi ▸ Dot.clamp_bounds d src.maxIter (hexp d rfl)
  | Simple sa =>
    simp only [CharSrc.mapAddr]
    cases h : src.mapSimpleAddr sa src.currentDot with
    | none =>
      exact hmi ▸ Dot.clamp_bounds Dot.default src.maxIter (le_refl 0)
    | some d =>
      simp only [Option.getD_some]
      exact hmi ▸ Dot.clamp_bounds d src.maxIter
        (src.mapSimpleAddr_ordered sa src.currentDot hcur d h)
  | Compound f t =>
    simp only [CharSrc.mapAddr]
    cases h : src.mapCompoundAddr f t with
    | none =>
      exact hmi ▸ Dot.clamp_bounds Dot.default src.maxIter (le_refl 0)
    | some d =>
      simp only [Option.getD_some]
      exact hmi ▸ Dot.clamp_bounds d src.maxIter
        (src.mapCompoundAddr_ordered f t d h)

/-- Witness for `mapAddr_yields_valid_dot`: the compound address `,`
(`Bof,Eof`) against the concrete two-line buffer state. -/
theorem mapAddr_yields_valid_dot_witness :
    ((⟨"ab\nc".toList, ⟨1, 2⟩, [], 0, 0, 0, 0⟩ : St).src.currentDot.dfrom ≤
      (⟨"ab\nc".toList, ⟨1, 2⟩, [], 0, 0, 0, 0⟩ : St).src.currentDot.dto) ∧
    (((⟨"ab\nc".toList, ⟨1, 2⟩, [], 0, 0, 0, 0⟩ : St).src.mapAddr
        (.Compound ⟨.Bof, []⟩ ⟨.Eof, []⟩)).dfrom ≤
      ((⟨"ab\nc".toList, ⟨1, 2⟩, [], 0, 0, 0, 0⟩ : St).src.mapAddr
        (.Compound ⟨.Bof, []⟩ ⟨.Eof, []⟩)).dto ∧
      ((⟨"ab\nc".toList, ⟨1, 2⟩, [], 0, 0, 0, 0⟩ : St).src.mapAddr
        (.Compound ⟨.Bof, []⟩ ⟨.Eof, []⟩)).dto ≤
      (⟨"ab\nc".toList, ⟨1, 2⟩, [], 0, 0, 0, 0⟩ : St).src.lenChars) :=
  ⟨by decide,
    mapAddr_yields_valid_dot _ _ (by decide)
      (fun d h => by cases h)⟩

theorem noEmptyBranches_cons_nonGroup (e : ExprM) (rest : List ExprM)
    (h : ∀ g, e ≠ ExprM.Group g) :
    noEmptyBranches (e :: rest) = noEmptyBranches rest := by
  cases e <;> first
    | exact absurd rfl (h _)
    | simp [noEmptyBranches]

theorem validateGroups_cons_nonGroup (e : ExprM) (rest : List ExprM)
    (h : ∀ g, e ≠ ExprM.Group g) :
    validateGroups (e :: rest) = validateGroups rest := by
  cases e <;> first
    | exact absurd rfl (h _)
    | simp [validateGroups]

theorem groupsBad_cons_nonGroup (e : ExprM) (rest : List ExprM)
    (h : ∀ g, e ≠ ExprM.Group g) :
    groupsBad (e :: rest) = groupsBad rest := by
  cases e <;> first
    | exact absurd rfl (h _)
    | simp [groupsBad]

theorem validate_groups_last_aux :
    ∀ es : List ExprM, es ≠ [] → noEmptyBranches es = true →
      ((validate es = .ok () ∧ endsBad es = false) ∨
       (validate es = .error .MissingAction ∧ endsBad es = true)) := by
  refine validate.induct
    (fun es => es ≠ [] → noEmptyBranches es = true →
      ((validate es = .ok () ∧ endsBad es = false) ∨
       (validate es = .error .MissingAction ∧ endsBad es = true)))
    (fun es => noEmptyBranches es = true →
      ((validateGroups es = .ok () ∧ groupsBad es = false) ∨
       (validateGroups es = .error .MissingAction ∧ groupsBad es = true)))
    (fun g => branchesNE g = true →
      ((validateBranches g = .ok () ∧ branchesBad g = false) ∨
       (validateBranches g = .error .MissingAction ∧ branchesBad g = true)))
    ?_ ?_ ?_ ?_ ?_ ?_ ?_ ?_ ?_ ?_ ?_
  · intro h _
    exact absurd rfl h
  · intro e rest err hgr ih _ hne
    rcases ih hne with ⟨hok, _⟩ | ⟨hma, hbad⟩
    · rw [hgr] at hok; cases hok
    · rw [hgr] at hma
      injection hma with hma2
      subst hma2
      refine .inr ⟨?_, ?_⟩
      · rw [validate, hgr]
      · rw [endsBad, hbad, Bool.or_true]
  · intro e rest hgr hact ih _ hne
    rcases ih hne with ⟨_, hbad⟩ | ⟨hma, _⟩
    · refine .inl ⟨?_, ?_⟩
      · rw [validate, hgr]
        simp [hact]
      · rw [endsBad, hbad, hact]
        rfl
    · rw [hgr] at hma; cases hma
  · intro e rest hgr hact ih _ hne
    rcases ih hne with ⟨_, hbad⟩ | ⟨hma, _⟩
    · refine .inr ⟨?_, ?_⟩
      · rw [validate, hgr]
        simp only [Bool.not_eq_true] at hact
        simp [hact]
      · rw [endsBad, hbad]
        simp only [Bool.not_eq_true] at hact
        rw [hact]
        rfl
    · rw [hgr] at hma; cases hma
  · intro _
    exact .inl ⟨by rw [validateGroups], by rw [groupsBad]⟩
  · intro g rest err hbr ih hne
    rw [noEmptyBranches, Bool.and_eq_true] at hne
    rcases ih hne.1 with ⟨hok, _⟩ | ⟨hma, hbad⟩
    · rw [hbr] at hok; cases hok
    · rw [hbr] at hma
      injection hma with hma2
      subst hma2
      refine .inr ⟨?_, ?_⟩
      · rw [validateGroups, hbr]
      · rw [groupsBad, hbad, Bool.true_or]
  · intro g rest hbr ih ihrest hne
    rw [noEmptyBranches, Bool.and_eq_true] at hne
    rcases ih hne.1 with ⟨_, hbad⟩ | ⟨hma, _⟩
    · rcases ihrest hne.2 with ⟨hok2, hbad2⟩ | ⟨hma2, hbad2⟩
      · refine .inl ⟨?_, ?_⟩
        · rw [validateGroups, hbr]
          exact hok2
        · rw [groupsBad, hbad, hbad2]
          rfl
      · refine .inr ⟨?_, ?_⟩
        · rw [validateGroups, hbr]
          exact hma2
        · rw [groupsBad, hbad, hbad2]
          rfl
    · rw [hbr] at hma; cases hma
  · intro head rest hng ih hne
    have hg : ∀ g, head ≠ ExprM.Group g := fun g h => hng g h
    rw [noEmptyBranches_cons_nonGroup head rest hg] at hne
    rw [validateGroups_cons_nonGroup head rest hg, groupsBad_cons_nonGroup head rest hg]
    exact ih hne
  · intro _
    exact .inl ⟨by rw [validateBranches], by rw [branchesBad]⟩
  · intro b rest err hvb ihb hne
    rw [branchesNE, Bool.and_eq_true, Bool.and_eq_true] at hne
    obtain ⟨⟨hbne, hnem⟩, hrest⟩ := hne
    have hbnil : b ≠ [] := by
      simpa [List.isEmpty_iff] using hbne
    rcases ihb hbnil hnem with ⟨hok, _⟩ | ⟨hma, hbad⟩
    · rw [hvb] at hok; cases hok
    · rw [hvb] at hma
      injection hma with hma2
      subst hma2
      refine .inr ⟨?_, ?_⟩
      · rw [validateBranches, hvb]
      · rw [branchesBad, hbad, Bool.true_or]
  · intro b rest hvb ihb ihrest hne
    rw [branchesNE, Bool.and_eq_true, Bool.and_eq_true] at hne
    obtain ⟨⟨hbne, hnem⟩, hrest⟩ := hne
    have hbnil : b ≠ [] := by
      simpa [List.isEmpty_iff] using hbne
    rcases ihb hbnil hnem with ⟨_, hbad⟩ | ⟨hma, _⟩
    · rcases ihrest hrest with ⟨hok2, hbad2⟩ | ⟨hma2, hbad2⟩
      · refine .inl ⟨?_, ?_⟩
        · rw [validateBranches, hvb]
          exact hok2
        · rw [branchesBad, hbad, hbad2]
          rfl
      · refine .inr ⟨?_, ?_⟩
        · rw [validateBranches, hvb]
          exact hma2
        · rw [branchesBad, hbad, hbad2]
          rfl
    · rw [hvb] at hma; cases hma

/-- Counterexample for C7. The claim's recursive last-expression rule
holds (the group's second branch ends in a non-action), yet `validate` does
not fail with `MissingAction`: the group's empty first branch makes the
recursive `validate` call fail with `EmptyProgram` first.  An empty branch
is accepted by the claim's rule (an empty top-level program is legal), so
the claim's "fails with `MissingAction` exactly when" is refuted here. -/
theorem validate_missing_action_counterexample :
    endsBad [ExprM.Group [[], [.LoopMatches emptyRegex]]] = true ∧
    validate [ExprM.Group [[], [.LoopMatches emptyRegex]]] = .error .EmptyProgram ∧
    ¬(validate [ExprM.Group [[], [.LoopMatches emptyRegex]]] = .error .MissingAction) := by
  refine ⟨?_, ?_, ?_⟩
  · simp [endsBad, groupsBad, branchesBad, isAction, List.getLast]
  · simp [validate, validateGroups, validateBranches]
  · simp [validate, validateGroups, validateBranches]

/-- Amended C7. The validation stage of `try_parse` accepts an empty
top-level `exprs` list, and for every non-empty `exprs` list *whose group
branches are hereditarily non-empty*, `validate` fails with `MissingAction`
exactly when the last expression of the list, or of some branch of some
`Group` in it (recursively), is not one of `Group`, `Insert`, `Append`,
`Change`, `Sub`, `Print`, `Delete` — and succeeds otherwise.  (An empty
group branch instead fails with `EmptyProgram` before the action check.) -/
theorem validate_last_action_rule :
    programValidation ([] : List ExprM) = .ok () ∧
    ∀ (exprs : List ExprM), exprs ≠ [] → noEmptyBranches exprs = true →
      ((validate exprs = .error .MissingAction ↔ endsBad exprs = true) ∧
       (validate exprs = .ok () ↔ endsBad exprs = false)) := by
  constructor
  · rfl
  · intro exprs hne hnem
    rcases validate_groups_last_aux exprs hne hnem with ⟨hok, hbad⟩ | ⟨hma, hbad⟩
    · refine ⟨⟨?_, ?_⟩, ⟨fun _ => hbad, fun _ => hok⟩⟩
      · intro h
        rw [hok] at h
        cases h
      · intro h
        rw [h] at hbad
        cases hbad
    · refine ⟨⟨fun _ => hbad, fun _ => hma⟩, ⟨?_, ?_⟩⟩
      · intro h
        rw [hma] at h
        cases h
      · intro h
        rw [h] at hbad
        cases hbad

/-- Witness for `validate_last_action_rule` at the one-expression program
`x/re/` (a loop with no action), which fails with `MissingAction`. -/
theorem validate_last_action_rule_witness :
    (([ExprM.LoopMatches emptyRegex] : List ExprM) ≠ [] ∧
      noEmptyBranches [ExprM.LoopMatches emptyRegex] = true) ∧
    ((validate [ExprM.LoopMatches emptyRegex] = .error .MissingAction ↔
        endsBad [ExprM.LoopMatches emptyRegex] = true) ∧
     (validate [ExprM.LoopMatches emptyRegex] = .ok () ↔
        endsBad [ExprM.LoopMatches emptyRegex] = false)) :=
  ⟨⟨by simp, by simp [noEmptyBranches]⟩,
    validate_last_action_rule.2 [ExprM.LoopMatches emptyRegex] (by simp)
      (by simp [noEmptyBranches])⟩

/-- Claim C6. For every program whose `exprs` list is empty and every `Edit`
target, `execute` returns the dot obtained by resolving `initial_dot` and
performs no mutation at all: the returned editor state is the input state
(same buffer text byte for byte, no insert, no remove, and no transaction
calls). -/
theorem execute_empty_exprs_noop (fuel : Nat) (p : ProgramM) (fname : List Char)
    (st : St) (hemp : p.exprs = []) :
    executeF fuel p fname st = (.ok (st.src.mapAddr p.initial_dot), st) := by
  unfold executeF
  simp [hemp]

/-- Witness for `execute_empty_exprs_noop`: the empty pipeline with a `0`
(beginning-of-file) initial address over a concrete buffer. -/
theorem execute_empty_exprs_noop_witness :
    ((⟨.Simple ⟨.Bof, []⟩, []⟩ : ProgramM).exprs = []) ∧
    executeF 3 ⟨.Simple ⟨.Bof, []⟩, []⟩ ['f'] ⟨['a', 'b', 'c'], ⟨1, 2⟩, [], 0, 0, 0, 0⟩
      = (.ok ((⟨['a', 'b', 'c'], ⟨1, 2⟩, [], 0, 0, 0, 0⟩ : St).src.mapAddr
          (.Simple ⟨.Bof, []⟩)),
        ⟨['a', 'b', 'c'], ⟨1, 2⟩, [], 0, 0, 0, 0⟩) :=
  ⟨rfl, execute_empty_exprs_noop 3 ⟨.Simple ⟨.Bof, []⟩, []⟩ ['f'] _ rfl⟩

/-- Claim C10. For the `Buffer` implementation of `Edit`, `remove(from, to)`
with `from == to` returns immediately without dispatching a delete action,
so a `Delete` step against an empty match leaves the editor state — buffer
contents and dispatched-action instrumentation (the undo log) — completely
unchanged and returns the cursor dot at the match position. -/
theorem buffer_remove_empty_range_noop (st : St) (k : Nat) (fuel : Nat)
    (fname : List Char) :
    st.remove k k = st ∧
    stepF (fuel + 1) [.Delete] 0 (MatchM.synthetic k k) fname st
      = (.ok ⟨k, k⟩, st) := by
  have h : st.remove k k = st := by
    simp [St.remove]
  refine ⟨h, ?_⟩
  show (Except.ok (Dot.fromCharIndices k k), st.remove k k) = (.ok ⟨k, k⟩, st)
  rw [h]
  simp [Dot.fromCharIndices]

theorem Dot.fromCharIndices_of_le {f t : Nat} (h : f ≤ t) :
    Dot.fromCharIndices f t = ⟨f, t⟩ := by
  simp [Dot.fromCharIndices, Nat.min_eq_left h, Nat.max_eq_right h]

/-- Claim C5. One `Sub(re, tpl)` step over the window `[f, t)`: when `re` has
a forward match in the window, the engine removes `[match.from, match.to)`,
inserts the expanded template `s` at `match.from`, and returns the dot
`[f, t - (match.to - match.from) + char_count(s))`; when `re` has no match
in the window, it returns `[f, t)` and the editor state is untouched. -/
theorem sub_step_semantics (fuel : Nat) (re : RegexM) (tpl : List Char)
    (f t : Nat) (fname : List Char) (st : St) (hft : f ≤ t) :
    (∀ mm s, re.matchFn st.text f t = some mm →
      templateMatch tpl mm st fname = .ok s →
      stepF (fuel + 1) [.Sub re tpl] 0 (MatchM.synthetic f t) fname st =
        (.ok ⟨f, t - (mm.mto - mm.mfrom) + s.length⟩,
          (st.remove mm.mfrom mm.mto).insert mm.mfrom s)) ∧
    (re.matchFn st.text f t = none →
      stepF (fuel + 1) [.Sub re tpl] 0 (MatchM.synthetic f t) fname st =
        (.ok ⟨f, t⟩, st)) := by
  have hstep : stepF (fuel + 1) [ExprM.Sub re tpl] 0 (MatchM.synthetic f t) fname st =
      (match re.matchFn st.text f t with
       | some mm =>
         match templateMatch tpl mm st fname with
         | .error e => (.error (.err e), st)
         | .ok s =>
           (.ok (Dot.fromCharIndices f (t - (mm.mto - mm.mfrom) + s.length)),
             (st.remove mm.mfrom mm.mto).insert mm.mfrom s)
       | none => (.ok (Dot.fromCharIndices f t), st)) := rfl
  constructor
  · intro mm s hm hs
    have hwf := re.wf st.text f t mm hm
    rw [hstep]
    simp only [hm, hs]
    rw [Dot.fromCharIndices_of_le (by omega)]
  · intro hm
    rw [hstep]
    simp only [hm]
    rw [Dot.fromCharIndices_of_le hft]

/-- Witness for `sub_step_semantics`: `s/b/X/` over the buffer `abc` with
window `[0, 3)` — the match `[1, 2)` is removed and `X` inserted at 1. -/
theorem sub_step_semantics_witness :
    (0 ≤ 3) ∧
    ((∀ mm s, (litRegex ['b']).matchFn
        (⟨['a', 'b', 'c'], ⟨0, 0⟩, [], 0, 0, 0, 0⟩ : St).text 0 3 = some mm →
      templateMatch ['X'] mm ⟨['a', 'b', 'c'], ⟨0, 0⟩, [], 0, 0, 0, 0⟩ ['f'] = .ok s →
      stepF 7 [.Sub (litRegex ['b']) ['X']] 0 (MatchM.synthetic 0 3) ['f']
          ⟨['a', 'b', 'c'], ⟨0, 0⟩, [], 0, 0, 0, 0⟩ =
        (.ok ⟨0, 3 - (mm.mto - mm.mfrom) + s.length⟩,
          ((⟨['a', 'b', 'c'], ⟨0, 0⟩, [], 0, 0, 0, 0⟩ : St).remove mm.mfrom mm.mto).insert
            mm.mfrom s)) ∧
    ((litRegex ['b']).matchFn (⟨['a', 'b', 'c'], ⟨0, 0⟩, [], 0, 0, 0, 0⟩ : St).text 0 3 = none →
      stepF 7 [.Sub (litRegex ['b']) ['X']] 0 (MatchM.synthetic 0 3) ['f']
          ⟨['a', 'b', 'c'], ⟨0, 0⟩, [], 0, 0, 0, 0⟩ =
        (.ok ⟨0, 3⟩, ⟨['a', 'b', 'c'], ⟨0, 0⟩, [], 0, 0, 0, 0⟩))) :=
  ⟨by omega, sub_step_semantics 6 (litRegex ['b']) ['X'] 0 3 ['f'] _ (by omega)⟩

theorem containsTok_false_of_head_notMem {c : Char} (pr : List Char) {s : List Char}
    (h : c ∉ s) : containsTok (c :: pr) s = false := by
  induction s with
  | nil => rfl
  | cons d tl ih =>
    have hcd : (c == d) = false := by
      simp only [beq_eq_false_iff_ne, ne_eq]
      exact fun e => h (by rw [e]; exact List.mem_cons_self d tl)
    have hctl : c ∉ tl := fun hm => h (List.mem_cons_of_mem d hm)
    simp [containsTok, List.isPrefixOf, hcd, ih hctl]

theorem replaceGo_zero_id {c : Char} (pr rep : List Char) {s : List Char}
    (h : c ∉ s) : replaceGo (c :: pr) rep 0 s = s := by
  induction s with
  | nil => rfl
  | cons d tl ih =>
    have hcd : (c == d) = false := by
      simp only [beq_eq_false_iff_ne, ne_eq]
      exact fun e => h (by rw [e]; exact List.mem_cons_self d tl)
    have hctl : c ∉ tl := fun hm => h (List.mem_cons_of_mem d hm)
    simp [replaceGo, List.isPrefixOf, hcd, ih hctl]

theorem templateVars_id (s : List Char) (m : MatchM) (st : St) :
    ∀ (vars : List (Nat × List Char)) (out : List Char),
      (∀ p ∈ vars, containsTok p.2 s = false) →
      templateVars s m st vars out = .ok out := by
  intro vars
  induction vars with
  | nil => intro out _; rfl
  | cons p rest ih =>
    intro out h
    rcases p with ⟨n, var⟩
    have hv := h (n, var) (List.mem_cons_self ..)
    simp only [templateVars, hv, Bool.false_eq_true, if_false]
    exact ih out (fun q hq => h q (List.mem_cons_of_mem _ hq))

theorem templateMatch_id (tpl : List Char) (m : MatchM) (st : St)
    (fname : List Char) (hd : '$' ∉ tpl) (hb : '\\' ∉ tpl) :
    templateMatch tpl m st fname = .ok tpl := by
  have h1 : containsTok fnameVar tpl = false := containsTok_false_of_head_notMem _ hd
  have h2 : replaceAll ['\\', 'n'] ['\n'] tpl = tpl := replaceGo_zero_id _ _ hb
  have h3 : replaceAll ['\\', 't'] ['\t'] tpl = tpl := replaceGo_zero_id _ _ hb
  unfold templateMatch
  simp only [h1, Bool.false_eq_true, if_false, h2, h3]
  apply templateVars_id
  intro p hp
  simp only [varsList, List.mem_map, List.mem_range] at hp
  obtain ⟨n, _, rfl⟩ := hp
  exact containsTok_false_of_head_notMem _ hd

theorem applyGo_insert_length (fuel : Nat) (exprs : List ExprM) (pc : Nat)
    (tpl fname : List Char) (hd : '$' ∉ tpl) (hb : '\\' ∉ tpl)
    (hpc : exprs[pc]? = some (.Insert tpl)) (ms : List MatchM) :
    ∀ (offset : Int) (dot : Dot) (st : St),
      (∃ d, (applyGo (fun m2 st2 => stepF (fuel + 1) exprs pc m2 fname st2)
        ms offset dot st).1 = .ok d) ∧
      (applyGo (fun m2 st2 => stepF (fuel + 1) exprs pc m2 fname st2)
        ms offset dot st).2.text.length = st.text.length + ms.length * tpl.length := by
  induction ms with
  | nil =>
    intro o dot st
    exact ⟨⟨dot, rfl⟩, by simp [applyGo]⟩
  | cons mm rest ih =>
    intro o dot st
    have htm := templateMatch_id tpl (MatchM.applyOffset o mm) st fname hd hb
    have hstep : stepF (fuel + 1) exprs pc (MatchM.applyOffset o mm) fname st =
        (.ok (Dot.fromCharIndices (MatchM.applyOffset o mm).mfrom
          ((MatchM.applyOffset o mm).mto + tpl.length)),
          st.insert (MatchM.applyOffset o mm).mfrom tpl) := by
      rw [stepF]
      simp only [hpc, htm]
    simp only [applyGo, hstep]
    have h3 := ih (o + (((st.insert (MatchM.applyOffset o mm).mfrom tpl).text.length : Int)
      - (st.text.length : Int)))
      (Dot.fromCharIndices (MatchM.applyOffset o mm).mfrom
        ((MatchM.applyOffset o mm).mto + tpl.length))
      (st.insert (MatchM.applyOffset o mm).mfrom tpl)
    refine ⟨h3.1, ?_⟩
    rw [h3.2, St.insert_text_length]
    simp only [List.length_cons]
    ring

/-- Claim C4. Executing `x/re/ i/X/` (a match loop followed by `Insert` of a
fixed template with no `$`-variables and no escapes): `apply_matches` shifts
each pre-collected match by the accumulated length delta of the earlier
iterations, every iteration succeeds and inserts `char_count(X)` characters,
so the final buffer length is the original length plus `N * char_count(X)`,
where `N` is the number of matches the `x` loop pre-collected in the
window. -/
theorem loop_insert_length (fuel : Nat) (re : RegexM) (tpl : List Char)
    (m : MatchM) (fname : List Char) (st : St) (hd : '$' ∉ tpl)
    (hb : '\\' ∉ tpl) :
    (∃ d, (stepF (fuel + 2) [.LoopMatches re, .Insert tpl] 0 m fname st).1
      = .ok d) ∧
    (stepF (fuel + 2) [.LoopMatches re, .Insert tpl] 0 m fname st).2.text.length
      = st.text.length
        + (collectMatches re st.text m.mfrom m.mto st.text.length).length
          * tpl.length := by
  have h := applyGo_insert_length (fuel + 1) [.LoopMatches re, .Insert tpl] 1
    tpl fname hd hb rfl
    (collectMatches re st.text m.mfrom m.mto st.text.length)
    0 (Dot.fromCharIndices m.mfrom m.mto) st
  rw [stepF]
  exact h

/-- Witness for `loop_insert_length`: `x/b/ i/X/` over the buffer `abc`
(one collected match), inserting one character. -/
theorem loop_insert_length_witness :
    ('$' ∉ ['X'] ∧ '\\' ∉ ['X']) ∧
    ((∃ d, (stepF 5 [.LoopMatches (litRegex ['b']), .Insert ['X']] 0
        (MatchM.synthetic 0 3) ['f'] ⟨['a', 'b', 'c'], ⟨0, 0⟩, [], 0, 0, 0, 0⟩).1
      = .ok d) ∧
    (stepF 5 [.LoopMatches (litRegex ['b']), .Insert ['X']] 0
        (MatchM.synthetic 0 3) ['f'] ⟨['a', 'b', 'c'], ⟨0, 0⟩, [], 0, 0, 0, 0⟩).2.text.length
      = (⟨['a', 'b', 'c'], ⟨0, 0⟩, [], 0, 0, 0, 0⟩ : St).text.length
        + (collectMatches (litRegex ['b'])
            (⟨['a', 'b', 'c'], ⟨0, 0⟩, [], 0, 0, 0, 0⟩ : St).text
            (MatchM.synthetic 0 3).mfrom (MatchM.synthetic 0 3).mto
            (⟨['a', 'b', 'c'], ⟨0, 0⟩, [], 0, 0, 0, 0⟩ : St).text.length).length
          * (['X'] : List Char).length) :=
  ⟨⟨by decide, by decide⟩,
    loop_insert_length 3 (litRegex ['b']) ['X'] (MatchM.synthetic 0 3) ['f']
      ⟨['a', 'b', 'c'], ⟨0, 0⟩, [], 0, 0, 0, 0⟩ (by decide) (by decide)⟩

theorem templateVars_char (s : List Char) (m : MatchM) (st : St)
    (fname : List Char) :
    ∀ (vars : List (Nat × List Char)) (out : List Char),
      (∀ n, templateVars s m st vars out = .error (.InvalidSubstitution n) ↔
        (vars.find? (fun q => containsTok q.2 s && (st.submatch m q.1).isNone)).map
          Prod.fst = some n) ∧
      ((vars.find? (fun q => containsTok q.2 s && (st.submatch m q.1).isNone)) = none →
        templateVars s m st vars out = .ok (applyPresentVars s m st vars out)) := by
  intro vars
  induction vars with
  | nil =>
    intro out
    constructor
    · intro n
      constructor
      · intro h; cases h
      · intro h; simp at h
    · intro _; rfl
  | cons pr rest ih =>
    intro out
    rcases pr with ⟨n, var⟩
    by_cases hcont : containsTok var s
    · cases hsm : st.submatch m n with
      | none =>
        have hp : (fun q : Nat × List Char =>
            containsTok q.2 s && (st.submatch m q.1).isNone) (n, var) = true := by
          simp [hcont, hsm]
        have hfind : List.find? (fun q : Nat × List Char =>
            containsTok q.2 s && (st.submatch m q.1).isNone) ((n, var) :: rest)
            = some (n, var) := List.find?_cons_of_pos rest hp
        have htv : templateVars s m st ((n, var) :: rest) out
            = .error (.InvalidSubstitution n) := by
          simp [templateVars, hcont, hsm]
        refine ⟨fun k => ?_, fun h => ?_⟩
        · rw [htv, hfind]
          simp only [Option.map_some']
          constructor
          · intro h
            injection h with h2
            injection h2 with h3
            rw [h3]
          · intro h
            injection h with h2
            rw [h2]
        · rw [hfind] at h
          cases h
      | some sm =>
        have hp : (fun q : Nat × List Char =>
            containsTok q.2 s && (st.submatch m q.1).isNone) (n, var) = false := by
          simp [hcont, hsm]
        have hfind : List.find? (fun q : Nat × List Char =>
            containsTok q.2 s && (st.submatch m q.1).isNone) ((n, var) :: rest)
            = List.find? (fun q : Nat × List Char =>
              containsTok q.2 s && (st.submatch m q.1).isNone) rest :=
          List.find?_cons_of_neg rest (by simp [hp])
        have htv : templateVars s m st ((n, var) :: rest) out
            = templateVars s m st rest (replaceAll var sm out) := by
          simp [templateVars, hcont, hsm]
        have happ : applyPresentVars s m st ((n, var) :: rest) out
            = applyPresentVars s m st rest (replaceAll var sm out) := by
          simp [applyPresentVars, hcont, hsm]
        have ih2 := ih (replaceAll var sm out)
        refine ⟨fun k => ?_, fun h => ?_⟩
        · rw [htv, hfind]
          exact ih2.1 k
        · rw [hfind] at h
          rw [htv, happ]
          exact ih2.2 h
    · have hp : (fun q : Nat × List Char =>
          containsTok q.2 s && (st.submatch m q.1).isNone) (n, var) = false := by
        simp [hcont]
      have hfind : List.find? (fun q : Nat × List Char =>
          containsTok q.2 s && (st.submatch m q.1).isNone) ((n, var) :: rest)
          = List.find? (fun q : Nat × List Char =>
            containsTok q.2 s && (st.submatch m q.1).isNone) rest :=
        List.find?_cons_of_neg rest (by simp [hp])
      have htv : templateVars s m st ((n, var) :: rest) out
          = templateVars s m st rest out := by
        simp [templateVars, hcont]
      have happ : applyPresentVars s m st ((n, var) :: rest) out
          = applyPresentVars s m st rest out := by
        simp [applyPresentVars, hcont]
      have ih2 := ih out
      refine ⟨fun k => ?_, fun h => ?_⟩
      · rw [htv, hfind]
        exact ih2.1 k
      · rw [hfind] at h
        rw [htv, happ]
        exact ih2.2 h

theorem find?_fst_over_varsList (q : Nat × List Char → Bool) :
    ((varsList.find? q).map Prod.fst) =
      (List.range 10).find? (fun n => q (n, varTok n)) := by
  rw [varsList]
  generalize List.range 10 = l
  induction l with
  | nil => rfl
  | cons a tl ih =>
    by_cases hq : q (a, varTok a)
    · simp [List.find?_cons_of_pos, hq]
    · have h1 : List.find? (fun n => q (n, varTok n)) (a :: tl)
          = List.find? (fun n => q (n, varTok n)) tl :=
        List.find?_cons_of_neg tl (by simpa using hq)
      have h2 : List.find? q ((a, varTok a) :: tl.map (fun n => (n, varTok n)))
          = List.find? q (tl.map (fun n => (n, varTok n))) :=
        List.find?_cons_of_neg _ hq
      simp only [List.map_cons, h1, h2]
      exact ih

/-- Counterexample for C8. The claim's per-`n` biconditional fails when
two variables are missing: on the template `$1$2` with a group-less
synthetic match, `$2` occurs and submatch 2 is absent, yet expansion fails
with `InvalidSubstitution(1)` (the loop reports the *first* failing
variable), not `InvalidSubstitution(2)`. -/
theorem template_substitution_counterexample :
    (containsTok (varTok 2) ['$', '1', '$', '2'] = true ∧
      (⟨['a', 'b', 'c'], ⟨0, 0⟩, [], 0, 0, 0, 0⟩ : St).submatch
        (MatchM.synthetic 0 2) 2 = none) ∧
    templateMatch ['$', '1', '$', '2'] (MatchM.synthetic 0 2)
        ⟨['a', 'b', 'c'], ⟨0, 0⟩, [], 0, 0, 0, 0⟩ ['f']
      = .error (.InvalidSubstitution 1) ∧
    ¬(templateMatch ['$', '1', '$', '2'] (MatchM.synthetic 0 2)
        ⟨['a', 'b', 'c'], ⟨0, 0⟩, [], 0, 0, 0, 0⟩ ['f']
      = .error (.InvalidSubstitution 2)) := by
  refine ⟨⟨rfl, rfl⟩, rfl, ?_⟩
  intro h
  have h1 : templateMatch ['$', '1', '$', '2'] (MatchM.synthetic 0 2)
      ⟨['a', 'b', 'c'], ⟨0, 0⟩, [], 0, 0, 0, 0⟩ ['f']
    = .error (.InvalidSubstitution 1) := rfl
  rw [h1] at h
  simp at h

/-- Amended C8. Template expansion fails with `InvalidSubstitution(n)`
exactly when `n` is the *first* index in `0..9` whose token `$n` occurs in
`s` while `m` has no submatch `n`; when no variable fails, it succeeds, and
the result replaces every occurrence of each present `$n` (in ascending
order of `n`) in the working string obtained by substituting `$FILENAME`
first and then the escapes `\n` and `\t`. -/
theorem template_match_substitution (s : List Char) (m : MatchM) (st : St)
    (fname : List Char) :
    (∀ n, templateMatch s m st fname = .error (.InvalidSubstitution n) ↔
      firstFailingVar s m st = some n) ∧
    (firstFailingVar s m st = none →
      templateMatch s m st fname =
        .ok (applyPresentVars s m st varsList
          (replaceAll ['\\', 't'] ['\t'] (replaceAll ['\\', 'n'] ['\n']
            (if containsTok fnameVar s then replaceAll fnameVar fname s else s))))) := by
  have hc := templateVars_char s m st fname varsList
    (replaceAll ['\\', 't'] ['\t'] (replaceAll ['\\', 'n'] ['\n']
      (if containsTok fnameVar s then replaceAll fnameVar fname s else s)))
  have hf : firstFailingVar s m st =
      (varsList.find? (fun q => containsTok q.2 s && (st.submatch m q.1).isNone)).map
        Prod.fst := by
    rw [find?_fst_over_varsList]
    exact rfl
  constructor
  · intro n
    rw [hf]
    exact hc.1 n
  · intro h
    rw [hf] at h
    exact hc.2 (Option.map_eq_none'.mp h)

theorem pdrGo_eq (rest : List Char) :
    ∀ (prev : Char) (acc : List Char),
      pdrGo rest prev acc = (match findClose rest prev with
        | some i => .ok (acc.reverse ++ rest.take i, rest.drop (i + 1))
        | none => .error .UnclosedDelimiter) := by
  induction rest with
  | nil => intro prev acc; rfl
  | cons c tl ih =>
    intro prev acc
    by_cases hc : c = '/' ∧ prev ≠ '\\'
    · simp [pdrGo, findClose, hc]
    · simp only [pdrGo, findClose, hc, if_false]
      rw [ih c (c :: acc)]
      cases hf : findClose tl c with
      | none => simp [hf]
      | some i =>
        simp [hf, List.reverse_cons, List.take_succ_cons, List.drop_succ_cons,
          List.append_assoc]

/-- Claim C9. Parsing a delimited address regex consumes exactly the characters
before the first unescaped `'/'` — the first `'/'` whose preceding character
is not a backslash (`findClose`) — leaving the stream positioned after that
delimiter; and it fails with `UnclosedDelimiter` precisely when the stream
ends before such a `'/'` occurs. -/
theorem parse_delimited_regex_consumption (input : List Char) :
    (parseDelimitedRegex input = (match findClose input '/' with
      | some i => .ok (input.take i, input.drop (i + 1))
      | none => .error .UnclosedDelimiter)) ∧
    (parseDelimitedRegex input = .error .UnclosedDelimiter ↔
      findClose input '/' = none) := by
  have h := pdrGo_eq input '/' []
  have hp : parseDelimitedRegex input = pdrGo input '/' [] := rfl
  constructor
  · rw [hp, h]
    cases hf : findClose input '/' with
    | none => rfl
    | some i => simp [hf]
  · rw [hp, h]
    cases hf : findClose input '/' with
    | none => simp [hf]
    | some i => simp [hf]

/-- Witness for `template_match_substitution` at the variable-free template
`a` (no failing variable; the result is the escaped, substituted string). -/
theorem template_match_substitution_witness :
    (∀ n, templateMatch ['a'] (MatchM.synthetic 0 1)
        ⟨['a', 'b', 'c'], ⟨0, 0⟩, [], 0, 0, 0, 0⟩ ['f']
      = .error (.InvalidSubstitution n) ↔
      firstFailingVar ['a'] (MatchM.synthetic 0 1)
        ⟨['a', 'b', 'c'], ⟨0, 0⟩, [], 0, 0, 0, 0⟩ = some n) ∧
    (firstFailingVar ['a'] (MatchM.synthetic 0 1)
        ⟨['a', 'b', 'c'], ⟨0, 0⟩, [], 0, 0, 0, 0⟩ = none →
      templateMatch ['a'] (MatchM.synthetic 0 1)
          ⟨['a', 'b', 'c'], ⟨0, 0⟩, [], 0, 0, 0, 0⟩ ['f'] =
        .ok (applyPresentVars ['a'] (MatchM.synthetic 0 1)
          ⟨['a', 'b', 'c'], ⟨0, 0⟩, [], 0, 0, 0, 0⟩ varsList
          (replaceAll ['\\', 't'] ['\t'] (replaceAll ['\\', 'n'] ['\n']
            (if containsTok fnameVar ['a']
              then replaceAll fnameVar ['f'] ['a'] else ['a']))))) :=
  template_match_substitution ['a'] (MatchM.synthetic 0 1)
    ⟨['a', 'b', 'c'], ⟨0, 0⟩, [], 0, 0, 0, 0⟩ ['f']
